import Mathlib

/-!
Verification of the GitSakhi repository-understanding system against its
natural-language specification.  The Lean definitions below are shallow
embeddings of the Python source: `src/rag/vector_store.py` (vector index),
`src/rag/knowledge_graph.py` (graph queries), and `src/index/indexer.py`
(structure parser and chunker).  Machine floats are modelled by real
numbers, Python dicts by insertion-ordered association lists, and raised
exceptions by `Except` values.
-/

open scoped Classical

namespace GitSakhi

/-! ## Vector store (src/rag/vector_store.py) -/

/-- Embedding of `VectorDBConfig` (vector_store.py lines 6-11). -/
structure VectorDBConfig where
  embedding_dim : Nat
  similarity_threshold : ℝ
  max_results : Nat

/-- The dataclass defaults: `embedding_dim=1536, similarity_threshold=0.7, max_results=10`. -/
noncomputable def defaultConfig : VectorDBConfig := ⟨1536, 7 / 10, 10⟩

/-- Embedding of the `CodeChunk` dataclass (knowledge_graph.py lines 6-19).
`None` fields become `Option`/empty lists. -/
structure CodeChunk where
  chunk_id : String
  repo_url : String
  file_path : String
  content : String
  start_line : Int
  end_line : Int
  language : String
  chunk_type : String
  dependencies : List String
  references : List String
  embedding : Option (List ℝ)

/-- `VectorStore` state: the two dicts `embeddings` and `chunks`
(vector_store.py lines 16-17), modelled as insertion-ordered association
lists, which is how CPython dicts behave. -/
structure VectorStore where
  embeddings : List (String × List ℝ)
  chunks : List (String × CodeChunk)

/-- A freshly constructed store: both dicts empty. -/
def emptyStore : VectorStore := ⟨[], []⟩

/-- Python dict assignment `d[k] = v`: overwrite in place if the key is
present (CPython keeps the key's original position), append otherwise. -/
def upsert {α : Type} (k : String) (v : α) : List (String × α) → List (String × α)
  | [] => [(k, v)]
  | (k', v') :: rest => if k' = k then (k, v) :: rest else (k', v') :: upsert k v rest

/-- Association-list lookup, i.e. Python `d[k]` / `d.get(k)`. -/
def lookupA {α : Type} (k : String) : List (String × α) → Option α
  | [] => none
  | (k', v') :: rest => if k' = k then some v' else lookupA k rest

/-- The two `ValueError`s `add_chunk` can raise (vector_store.py lines 21-26). -/
inductive AddError where
  | missing_embedding
  | dimension_mismatch
deriving DecidableEq

/-- Embedding of `VectorStore.add_chunk` (vector_store.py lines 19-29).
Python's `if not chunk.embedding` is truthiness: it raises for `None` and
also for an empty list, hence the two `missing_embedding` branches.  The
dimension check compares `np.array(chunk.embedding).shape[0]`, i.e. the
list length, against the configured dimension.  Both raises happen before
either dict is written. -/
def add_chunk (cfg : VectorDBConfig) (s : VectorStore) (c : CodeChunk) :
    Except AddError VectorStore :=
  match c.embedding with
  | none => .error .missing_embedding
  | some v =>
    if v.isEmpty then .error .missing_embedding
    else if v.length ≠ cfg.embedding_dim then .error .dimension_mismatch
    else .ok ⟨upsert c.chunk_id v s.embeddings, upsert c.chunk_id c s.chunks⟩

/-- Embedding of `VectorStore.delete_chunk` (vector_store.py lines 31-34):
`pop(chunk_id, None)` on both dicts. -/
def delete_chunk (s : VectorStore) (chunk_id : String) : VectorStore :=
  ⟨s.embeddings.filter (fun e => decide (e.1 ≠ chunk_id)),
   s.chunks.filter (fun e => decide (e.1 ≠ chunk_id))⟩

/-- One external operation on the store, for stating reachable-state invariants. -/
inductive StoreOp where
  | add (c : CodeChunk)
  | del (chunk_id : String)

/-- Effect of one operation on the state.  A raising `add_chunk` leaves the
state unchanged: in the source both raises occur before any write. -/
def apply_op (cfg : VectorDBConfig) (s : VectorStore) : StoreOp → VectorStore
  | .add c =>
    match add_chunk cfg s c with
    | .ok s' => s'
    | .error _ => s
  | .del chunk_id => delete_chunk s chunk_id

/-- Run a sequence of operations from the empty store. -/
def run_ops (cfg : VectorDBConfig) (ops : List StoreOp) : VectorStore :=
  ops.foldl (apply_op cfg) emptyStore

/-- Elementwise dot product `np.dot` over equal-length vectors
(vector_store.py line 74). -/
def dot : List ℝ → List ℝ → ℝ
  | x :: xs, y :: ys => x * y + dot xs ys
  | _, _ => 0

/-- `np.linalg.norm`: the Euclidean norm, square root of the dot product
of a vector with itself. -/
noncomputable def vnorm (v : List ℝ) : ℝ := Real.sqrt (dot v v)

/-- Embedding of `VectorStore._cosine_similarity` (vector_store.py
lines 68-74): returns 0 when either norm is zero, otherwise the dot
product divided by the product of the norms. -/
noncomputable def cosine_similarity (v1 v2 : List ℝ) : ℝ :=
  if vnorm v1 = 0 ∨ vnorm v2 = 0 then 0
  else dot v1 v2 / (vnorm v1 * vnorm v2)

/-- `top_k = top_k or self.config.max_results` (vector_store.py line 50):
Python `or` replaces a falsy `top_k` — both `None` and `0` — by the
configured `max_results`. -/
def effective_top_k (cfg : VectorDBConfig) : Option Nat → Nat
  | none => cfg.max_results
  | some 0 => cfg.max_results
  | some (n + 1) => n + 1

/-- One step of Python's stable sort with `reverse=True` on the score
component: a new element is placed after every element whose score is
greater than or equal to its own, so that equal scores keep their
original relative order. -/
noncomputable def insert_desc (x : String × ℝ) : List (String × ℝ) → List (String × ℝ)
  | [] => [x]
  | y :: rest => if x.2 ≤ y.2 then y :: insert_desc x rest else x :: y :: rest

/-- `similarities.sort(key=lambda x: x[1], reverse=True)` (vector_store.py
line 61): CPython's sort is stable, which is extensionally the insertion
sort above applied left to right. -/
noncomputable def sort_desc (l : List (String × ℝ)) : List (String × ℝ) :=
  l.foldl (fun acc x => insert_desc x acc) []

/-- Embedding of `VectorStore.search` (vector_store.py lines 36-62):
empty dict short-circuits to `[]`; otherwise every stored embedding is
scored, scores below `config.similarity_threshold` are dropped
(`similarity >= threshold` is kept), the survivors are sorted by score
descending (stable), and the first `top_k` are returned. -/
noncomputable def search (cfg : VectorDBConfig) (s : VectorStore)
    (query_embedding : List ℝ) (top_k : Option Nat) : List (String × ℝ) :=
  if s.embeddings.isEmpty then []
  else
    let k := effective_top_k cfg top_k
    let sims := s.embeddings.filterMap (fun e =>
      let sim := cosine_similarity query_embedding e.2
      if cfg.similarity_threshold ≤ sim then some (e.1, sim) else none)
    (sort_desc sims).take k

/-! ## Knowledge graph (src/rag/knowledge_graph.py) -/

/-- The `networkx.DiGraph` held by `CodeKnowledgeGraph`: explicitly added
nodes plus directed edges (edge insertion also registers both endpoints
as nodes, as networkx does). -/
structure KnowledgeGraph where
  node_ids : List String
  edges : List (String × String)

/-- `chunk_id in self.graph` (knowledge_graph.py line 130): a string is a
node if it was added as a node or appears as an endpoint of an edge. -/
def node_mem (g : KnowledgeGraph) (v : String) : Bool :=
  g.node_ids.contains v || g.edges.any (fun e => decide (e.1 = v) || decide (e.2 = v))

/-- Direct successors of a node along directed edges. -/
def succs (g : KnowledgeGraph) (v : String) : List String :=
  (g.edges.filter (fun e => decide (e.1 = v))).map (fun e => e.2)

/-- Modelled semantics of
`networkx.single_source_shortest_path(graph, src, cutoff=k).keys()`
(knowledge_graph.py line 135): the set of nodes whose shortest-path
distance from `src` is at most `k`, computed level by level. -/
def ball (g : KnowledgeGraph) (src : String) : Nat → List String
  | 0 => [src]
  | k + 1 =>
    let b := ball g src k
    (b ++ b.flatMap (succs g)).dedup

/-- Embedding of `CodeKnowledgeGraph.get_related_chunks`
(knowledge_graph.py lines 128-139): missing source node yields `[]`;
otherwise the union over `depth in range(max_depth)` of the nodes within
`depth + 1` hops, with the source itself discarded.  The Python code
accumulates a `set`, so only membership in the result is meaningful. -/
def get_related_chunks (g : KnowledgeGraph) (chunk_id : String) (max_depth : Nat) :
    List String :=
  if node_mem g chunk_id then
    (((List.range max_depth).flatMap (fun depth => ball g chunk_id (depth + 1))).dedup).filter
      (fun x => decide (x ≠ chunk_id))
  else []

/-- Specification-side notion: `ReachWithin g u k v` holds when there is a
directed walk from `u` to `v` of at most `k` edges. -/
inductive ReachWithin (g : KnowledgeGraph) (u : String) : Nat → String → Prop
  | refl (k : Nat) : ReachWithin g u k u
  | step {k : Nat} {v w : String} :
      ReachWithin g u k v → (v, w) ∈ g.edges → ReachWithin g u (k + 1) w

/-! ## String utilities shared by the indexer model

Strings manipulated character-wise by `indexer.py` are modelled as
`List Char`. -/

/-- Python `str.strip()`: drop whitespace from both ends. -/
def trim_ws (l : List Char) : List Char :=
  ((l.dropWhile Char.isWhitespace).reverse.dropWhile Char.isWhitespace).reverse

/-- Python `str.split('\n')`. -/
def split_lines : List Char → List (List Char)
  | [] => [[]]
  | c :: rest =>
    match split_lines rest with
    | [] => [[]]
    | l :: ls => if c = '\n' then [] :: l :: ls else (c :: l) :: ls

/-- Worker for `remove_occs`, structurally recursive on a fuel argument so
that concrete inputs evaluate by `decide`.  Each step consumes at least
one character, so fuel equal to the input length never runs out. -/
def remove_go (pat : List Char) : Nat → List Char → List Char
  | _, [] => []
  | 0, s => s
  | fuel + 1, c :: rest =>
    if pat ≠ [] ∧ pat.isPrefixOf (c :: rest) then
      remove_go pat fuel (rest.drop (pat.length - 1))
    else
      c :: remove_go pat fuel rest

/-- Python `s.replace(pat, '')`: scan left to right, deleting each
non-overlapping occurrence of `pat`. -/
def remove_occs (pat s : List Char) : List Char := remove_go pat s.length s

/-- Python `'/'.join(parts)`. -/
def join_slash : List (List Char) → List Char
  | [] => []
  | [x] => x
  | x :: y :: rest => x ++ '/' :: join_slash (y :: rest)

/-! ## Structure parser (src/index/indexer.py, `_parse_repo_structure`) -/

/-- The `type` value of a parsed entry: `'file'` or `'directory'`. -/
inductive EntryKind where
  | file
  | directory
deriving DecidableEq

/-- One dict appended to `self.repo_structure` (indexer.py lines 78-87). -/
structure PathEntry where
  name : List Char
  level : Nat
  path : List Char
  parent : Option (List Char)
  kind : EntryKind
deriving DecidableEq

/-- Name extraction (indexer.py lines 63-65): `line.strip()` followed by
deleting every occurrence of the four tree-glyph strings, in order. -/
def strip_glyphs (line : List Char) : List Char :=
  remove_occs [' ', ' ', ' ', ' ']
    (remove_occs ['│', ' ', ' ', ' ']
      (remove_occs ['└', '─', '─', ' ']
        (remove_occs ['├', '─', '─', ' '] (trim_ws line))))

/-- Leading-whitespace count (indexer.py line 59, `re.match(r'\s*', line)`). -/
def line_indent (line : List Char) : Nat := (line.takeWhile Char.isWhitespace).length

/-- `level = indent // 4` (indexer.py line 60). -/
def line_level (line : List Char) : Nat := line_indent line / 4

/-- Loop state of `_parse_repo_structure`: the `current_path` stack and
the entries appended so far. -/
structure ParseState where
  current_path : List (List Char)
  entries : List PathEntry

/-- One iteration of the loop in `_parse_repo_structure` (indexer.py
lines 54-87).  Blank lines are skipped.  The entry's `type` is computed
from `self.repo_structure` as it stands at that moment, i.e. from the
entries appended so far, before the new entry itself is appended. -/
def parse_step (st : ParseState) (line : List Char) : ParseState :=
  if trim_ws line = [] then st
  else
    let level := line_level line
    let name := strip_glyphs line
    let current := st.current_path.take level ++ [name]
    let full_path := join_slash current
    let parent : Option (List Char) :=
      if 0 < level then some (join_slash current.dropLast) else none
    let kind :=
      if st.entries.any (fun e => (full_path ++ ['/']).isPrefixOf e.path) then
        EntryKind.directory
      else EntryKind.file
    ⟨current, st.entries ++ [⟨name, level, full_path, parent, kind⟩]⟩

/-- Embedding of `Indexer._parse_repo_structure` (indexer.py lines 49-87),
returning the ordered entry list. -/
def parse_repo_structure (text : List Char) : List PathEntry :=
  ((split_lines text).foldl parse_step ⟨[], []⟩).entries

/-- Modelled from the spec: `relatedFiles` has no implementation in the
repository source — only consumers exist (`examples/debugger.py` reads
`result['related_files']` and `src/llm/groq_llm.py` declares the field).
Spec section 4.3: "relatedFiles(path): 1-hop only — siblings (other
children of path's parent) plus, if path is a directory, its direct
children." -/
def related_files (entries : List PathEntry) (p : PathEntry) : List (List Char) :=
  ((entries.filter (fun e => decide (e.parent = p.parent ∧ e.path ≠ p.path))).map
      (fun e => e.path))
    ++ (if p.kind = EntryKind.directory then
          (entries.filter (fun e => decide (e.parent = some p.path))).map (fun e => e.path)
        else [])

/-! ## Chunker (src/index/indexer.py, `get_chunks` lines 129-193)

The per-file function/class extraction loop.  The file-level chunk that
`get_chunks` appends first (indexer.py lines 117-126, a dict without line
fields) is separate from the sub-chunks modelled here. -/

/-- Python `\w` (default unicode flag): alphanumeric or underscore. -/
def is_word_char (c : Char) : Bool := c.isAlphanum || c = '_'

/-- `re.match(r'^def\s+\w+\s*\(', stripped)` (indexer.py line 139):
`def`, one or more whitespace, one or more word characters, optional
whitespace, an opening parenthesis. -/
def def_match : List Char → Bool
  | 'd' :: 'e' :: 'f' :: rest =>
    let ws := rest.takeWhile Char.isWhitespace
    let r1 := rest.dropWhile Char.isWhitespace
    let w := r1.takeWhile is_word_char
    let r2 := (r1.dropWhile is_word_char).dropWhile Char.isWhitespace
    !ws.isEmpty && !w.isEmpty &&
      (match r2 with
       | '(' :: _ => true
       | _ => false)
  | _ => false

/-- `re.match(r'^class\s+\w+', stripped)` (indexer.py line 153). -/
def class_match : List Char → Bool
  | 'c' :: 'l' :: 'a' :: 's' :: 's' :: rest =>
    let ws := rest.takeWhile Char.isWhitespace
    let w := (rest.dropWhile Char.isWhitespace).takeWhile is_word_char
    !ws.isEmpty && !w.isEmpty
  | _ => false

/-- The sub-chunk tags `'function' | 'class_method' | 'code'`. -/
inductive ChunkType where
  | function
  | class_method
  | code
deriving DecidableEq

/-- `'function' if in_function else 'class_method' if in_class else 'code'`
(indexer.py line 146 and the three analogous sites). -/
def chunk_tag (in_function in_class : Bool) : ChunkType :=
  if in_function then .function else if in_class then .class_method else .code

/-- Python `'\n'.join(lines)`. -/
def join_nl : List (List Char) → List Char
  | [] => []
  | [x] => x
  | x :: y :: rest => x ++ '\n' :: join_nl (y :: rest)

/-- The dict built by `Indexer._create_chunk` (indexer.py lines 197-212),
restricted to its non-metadata fields (the metadata duplicates them and
adds the id string `file_path:start-end`). -/
structure IndexChunk where
  chunk_type : ChunkType
  file_path : List Char
  content : List Char
  start_line : Nat
  end_line : Nat
deriving DecidableEq

/-- Loop state of the extraction loop (indexer.py lines 130-133). -/
structure ChunkState where
  in_function : Bool
  in_class : Bool
  current_chunk : List (List Char)
  chunk_start : Nat
  acc : List IndexChunk

/-- `Indexer._create_chunk` (indexer.py lines 197-212). -/
def create_chunk (fp : List Char) (ls : List (List Char)) (s e : Nat)
    (t : ChunkType) : IndexChunk :=
  ⟨t, fp, join_nl ls, s, e⟩

/-- One iteration over `(i, line)` (indexer.py lines 135-183).  The three
branches (def / class / other) run first; then, on the same iteration, a
non-blank line not starting with a space flushes the current block.  The
def branch leaves `in_class` untouched, exactly as the source does, and
`chunk_start` is never reset on a flush. -/
def chunk_step (fp : List Char) (st : ChunkState) (i : Nat) (line : List Char) :
    ChunkState :=
  let stripped := trim_ws line
  let st1 : ChunkState :=
    if def_match stripped then
      { st with
        acc := st.acc ++
          (if st.current_chunk ≠ [] then
            [create_chunk fp st.current_chunk st.chunk_start (i - 1)
              (chunk_tag st.in_function st.in_class)]
          else []),
        current_chunk := [line], chunk_start := i, in_function := true }
    else if class_match stripped then
      { st with
        acc := st.acc ++
          (if st.current_chunk ≠ [] then
            [create_chunk fp st.current_chunk st.chunk_start (i - 1)
              (chunk_tag st.in_function st.in_class)]
          else []),
        current_chunk := [line], chunk_start := i, in_class := true, in_function := false }
    else { st with current_chunk := st.current_chunk ++ [line] }
  if trim_ws line ≠ [] ∧ line.head? ≠ some ' ' then
    { st1 with
      acc := st1.acc ++
        (if st1.current_chunk ≠ [] then
          [create_chunk fp st1.current_chunk st1.chunk_start i
            (chunk_tag st1.in_function st1.in_class)]
        else []),
      current_chunk := [], in_function := false, in_class := false }
  else st1

/-- The sub-chunks produced for one file's content by the loop of
`Indexer.get_chunks` (indexer.py lines 129-193), including the
end-of-file flush (lines 186-193). -/
def file_sub_chunks (fp content : List Char) : List IndexChunk :=
  let lines := split_lines content
  let final := lines.enum.foldl (fun st p => chunk_step fp st p.1 p.2)
    ⟨false, false, [], 0, []⟩
  final.acc ++
    (if final.current_chunk ≠ [] then
      [create_chunk fp final.current_chunk final.chunk_start (lines.length - 1)
        (chunk_tag final.in_function final.in_class)]
    else [])

/-! ## Theorems -/

/-- C1: the structure parser does NOT classify kinds from later entries.
On the dump section `"a\n    ├── b"` the later entry has path `a/b`,
which is `a` followed by `"/"` and more, so the claim requires entry `a`
to be a directory; the code classifies it `file`, because the
classification scans `self.repo_structure` as it stands before the entry
is appended, and a parent always precedes its children in a tree dump. -/
theorem c1_classification_failing_input :
    (parse_repo_structure ("a\n    ├── b".data)).map (fun e => (e.path, e.kind))
      = [("a".data, EntryKind.file), ("a/b".data, EntryKind.file)]
    ∧ ("a".data ++ ['/']).isPrefixOf ("a/b".data) = true := by
  decide

/-- C2: a file that is exactly one two-line function with no dedent does
NOT produce a single function chunk covering lines [0, 1].  The
end-of-block check fires on the zero-indent `def` line itself, flushing a
function chunk [0, 0]; the body then accumulates into a final `code`
chunk recorded as [0, 1] (its `chunk_start` was never reset). -/
theorem c2_chunker_failing_input :
    file_sub_chunks ("x.py".data) ("def f():\n    return 1".data)
      = [⟨ChunkType.function, "x.py".data, "def f():".data, 0, 0⟩,
         ⟨ChunkType.code, "x.py".data, "    return 1".data, 0, 1⟩] := by
  decide

lemma map_fst_upsert_congr {α β : Type} (k : String) (v : α) (w : β) :
    ∀ (l₁ : List (String × α)) (l₂ : List (String × β)),
      l₁.map Prod.fst = l₂.map Prod.fst →
      (upsert k v l₁).map Prod.fst = (upsert k w l₂).map Prod.fst := by
  intro l₁
  induction l₁ with
  | nil =>
    intro l₂ h
    cases l₂ with
    | nil => simp [upsert]
    | cons b t => simp at h
  | cons a t ih =>
    intro l₂ h
    cases l₂ with
    | nil => simp at h
    | cons b t' =>
      simp only [List.map_cons, List.cons.injEq] at h
      obtain ⟨hfst, htl⟩ := h
      by_cases hk : a.1 = k
      · simp [upsert, hk, hfst ▸ hk, htl]
      · have hk' : b.1 ≠ k := by rw [← hfst]; exact hk
        simp [upsert, hk, hk', hfst, ih t' htl]

lemma map_fst_filter_ne {α : Type} (k : String) (l : List (String × α)) :
    (l.filter (fun e => decide (e.1 ≠ k))).map Prod.fst
      = (l.map Prod.fst).filter (fun x => decide (x ≠ k)) := by
  induction l with
  | nil => simp
  | cons a t ih =>
    simp only [ne_eq, decide_not] at ih ⊢
    by_cases hk : a.1 = k
    · simp [List.filter_cons, hk, ih]
    · simp [List.filter_cons, hk, ih]

lemma apply_op_keys (cfg : VectorDBConfig) (s : VectorStore) (op : StoreOp)
    (h : s.embeddings.map Prod.fst = s.chunks.map Prod.fst) :
    (apply_op cfg s op).embeddings.map Prod.fst
      = (apply_op cfg s op).chunks.map Prod.fst := by
  cases op with
  | add c =>
    simp only [apply_op]
    cases hc : c.embedding with
    | none => simp [add_chunk, hc, h]
    | some v =>
      by_cases he : v.isEmpty
      · simp [add_chunk, hc, he, h]
      · by_cases hd : v.length ≠ cfg.embedding_dim
        · simp [add_chunk, hc, he, hd, h]
        · simp only [add_chunk, hc, he, hd]
          exact map_fst_upsert_congr c.chunk_id v c s.embeddings s.chunks h
  | del chunk_id =>
    simp only [apply_op, delete_chunk]
    rw [map_fst_filter_ne, map_fst_filter_ne, h]

/-- C10: from the empty store, any sequence of `add_chunk`/`delete_chunk`
operations leaves the `embeddings` and `chunks` dicts with identical key
sequences (hence identical id sets): a successful add upserts the same id
into both, a raising add mutates neither, and a delete pops the id from
both. -/
theorem c10_keys_in_sync (cfg : VectorDBConfig) (ops : List StoreOp) :
    (run_ops cfg ops).embeddings.map Prod.fst
      = (run_ops cfg ops).chunks.map Prod.fst := by
  suffices h : ∀ (l : List StoreOp) (s : VectorStore),
      s.embeddings.map Prod.fst = s.chunks.map Prod.fst →
      (l.foldl (apply_op cfg) s).embeddings.map Prod.fst
        = (l.foldl (apply_op cfg) s).chunks.map Prod.fst by
    exact h ops emptyStore (by simp [emptyStore])
  intro l
  induction l with
  | nil => intro s h; exact h
  | cons op rest ih =>
    intro s h
    exact ih (apply_op cfg s op) (apply_op_keys cfg s op h)

lemma map_fst_upsert {α : Type} (k : String) (v : α) (l : List (String × α)) :
    (upsert k v l).map Prod.fst =
      (if k ∈ l.map Prod.fst then l.map Prod.fst else l.map Prod.fst ++ [k]) := by
  induction l with
  | nil => simp [upsert]
  | cons a t ih =>
    by_cases hk : a.1 = k
    · simp [upsert, hk]
    · have hne : k ≠ a.1 := fun h => hk h.symm
      by_cases hmem : k ∈ t.map Prod.fst
      · simp [upsert, hk, hmem, hne, ih]
      · simp [upsert, hk, hmem, hne, ih]

lemma lookupA_upsert {α : Type} (k : String) (v : α) (l : List (String × α)) :
    lookupA k (upsert k v l) = some v := by
  induction l with
  | nil => simp [upsert, lookupA]
  | cons a t ih =>
    by_cases hk : a.1 = k
    · simp [upsert, hk, lookupA]
    · simp [upsert, hk, lookupA, ih]

/-- For C7 and its witness: a concrete chunk with a chosen embedding. -/
def sampleChunk (e : Option (List ℝ)) : CodeChunk :=
  ⟨"a", "", "", "", 0, 0, "", "", [], [], e⟩

/-- C7 (amended): for a chunk carrying a NONEMPTY embedding vector,
`add_chunk` raises dimension-mismatch exactly when the vector length
differs from the configured dimension, and a successful add upserts: an
id already present keeps the key sequence unchanged (no duplicate) and
now maps to the new data; a fresh id is appended once. -/
theorem c7_add_chunk_contract (cfg : VectorDBConfig) (s : VectorStore)
    (c : CodeChunk) (v : List ℝ) (h1 : c.embedding = some v) (h2 : v ≠ []) :
    ((add_chunk cfg s c = .error .dimension_mismatch) ↔ v.length ≠ cfg.embedding_dim)
    ∧ (∀ s', add_chunk cfg s c = .ok s' →
        s'.embeddings.map Prod.fst =
          (if c.chunk_id ∈ s.embeddings.map Prod.fst then s.embeddings.map Prod.fst
           else s.embeddings.map Prod.fst ++ [c.chunk_id])
        ∧ lookupA c.chunk_id s'.embeddings = some v
        ∧ s'.chunks.map Prod.fst =
          (if c.chunk_id ∈ s.chunks.map Prod.fst then s.chunks.map Prod.fst
           else s.chunks.map Prod.fst ++ [c.chunk_id])
        ∧ lookupA c.chunk_id s'.chunks = some c) := by
  have he : v.isEmpty = false := by
    cases v with
    | nil => exact absurd rfl h2
    | cons x t => rfl
  by_cases hd : v.length ≠ cfg.embedding_dim
  · constructor
    · simp [add_chunk, h1, he, hd]
    · intro s' hs'
      simp [add_chunk, h1, he, hd] at hs'
  · constructor
    · simp [add_chunk, h1, he, hd]
    · intro s' hs'
      simp only [add_chunk, h1, he, Bool.false_eq_true, if_false, hd, ite_false,
        if_neg, Except.ok.injEq] at hs'
      subst hs'
      refine ⟨map_fst_upsert _ _ _, lookupA_upsert _ _ _,
        map_fst_upsert _ _ _, lookupA_upsert _ _ _⟩

/-- C7 counterexample: a chunk whose embedding is present but empty.  Its
length (0) differs from the configured dimension (1536), so the claim as
stated demands a dimension-mismatch error, but the code's truthiness test
`if not chunk.embedding` rejects it as missing-embedding first. -/
theorem c7_counterexample :
    ¬ ((add_chunk ⟨1536, 0, 10⟩ emptyStore (sampleChunk (some []))
          = .error .dimension_mismatch)
        ↔ ([] : List ℝ).length ≠ (1536 : Nat)) := by
  intro h
  have h2 : add_chunk ⟨1536, 0, 10⟩ emptyStore (sampleChunk (some []))
      = .error .missing_embedding := by
    simp [add_chunk, sampleChunk]
  rw [h2] at h
  have := h.mpr (by decide)
  simp at this

/-- C7 witness: dimension 1, vector `[1]` of matching length, inserted on
top of an existing entry with the same id: no dimension error, key
sequence unchanged, value replaced. -/
theorem c7_witness :
    (sampleChunk (some [(1 : ℝ)])).embedding = some [(1 : ℝ)]
    ∧ [(1 : ℝ)] ≠ []
    ∧ ((add_chunk ⟨1, 0, 10⟩ ⟨[("a", [(0 : ℝ)])], [("a", sampleChunk none)]⟩
          (sampleChunk (some [(1 : ℝ)])) = .error .dimension_mismatch)
        ↔ [(1 : ℝ)].length ≠ (1 : Nat)) := by
  refine ⟨rfl, by simp, ?_⟩
  exact (c7_add_chunk_contract ⟨1, 0, 10⟩
    ⟨[("a", [(0 : ℝ)])], [("a", sampleChunk none)]⟩
    (sampleChunk (some [(1 : ℝ)])) [(1 : ℝ)] rfl (by simp)).1

lemma dot_self_nonneg (v : List ℝ) : 0 ≤ dot v v := by
  induction v with
  | nil => simp [dot]
  | cons x t ih =>
    have hx : 0 ≤ x * x := mul_self_nonneg x
    simpa [dot] using add_nonneg hx ih

lemma dot_self_pos (v : List ℝ) (h : ∃ x ∈ v, x ≠ 0) : 0 < dot v v := by
  induction v with
  | nil => simp at h
  | cons a t ih =>
    obtain ⟨x, hx, hxne⟩ := h
    rcases List.mem_cons.mp hx with rfl | hxt
    · have ha : 0 < x * x := mul_self_pos.mpr hxne
      have ht := dot_self_nonneg t
      simp only [dot]
      nlinarith
    · have ht := ih ⟨x, hxt, hxne⟩
      have ha := mul_self_nonneg a
      simp only [dot]
      nlinarith

lemma cosine_similarity_self (v : List ℝ) (h : ∃ x ∈ v, x ≠ 0) :
    cosine_similarity v v = 1 := by
  have hpos : 0 < dot v v := dot_self_pos v h
  have hnorm : vnorm v ≠ 0 := by
    unfold vnorm
    exact (Real.sqrt_pos.mpr hpos).ne'
  unfold cosine_similarity
  rw [if_neg (by push_neg; exact ⟨hnorm, hnorm⟩)]
  rw [vnorm, Real.mul_self_sqrt hpos.le]
  exact div_self hpos.ne'

lemma cosine_similarity_zero (v w : List ℝ) (h : vnorm v = 0 ∨ vnorm w = 0) :
    cosine_similarity v w = 0 := by
  unfold cosine_similarity
  rw [if_pos h]

/-- C8: in the exact-real model of `_cosine_similarity`, a nonzero vector
has similarity exactly 1 with itself (the float claim's "within
tolerance" is exact here), and any pair in which either vector has zero
norm gets the defined value 0. -/
theorem c8_cosine_self_and_zero :
    (∀ v : List ℝ, (∃ x ∈ v, x ≠ 0) → cosine_similarity v v = 1)
    ∧ (∀ v w : List ℝ, vnorm v = 0 ∨ vnorm w = 0 → cosine_similarity v w = 0) :=
  ⟨cosine_similarity_self, cosine_similarity_zero⟩

/-- C8 witness: the vector `[1]` against itself, and against the
zero-norm empty vector. -/
theorem c8_witness :
    (∃ x ∈ [(1 : ℝ)], x ≠ 0)
    ∧ cosine_similarity [(1 : ℝ)] [(1 : ℝ)] = 1
    ∧ vnorm ([] : List ℝ) = 0
    ∧ cosine_similarity [(1 : ℝ)] ([] : List ℝ) = 0 := by
  have hex : ∃ x ∈ [(1 : ℝ)], x ≠ 0 := ⟨1, by simp, one_ne_zero⟩
  have hn : vnorm ([] : List ℝ) = 0 := by
    unfold vnorm
    rw [show dot ([] : List ℝ) [] = 0 from rfl, Real.sqrt_zero]
  exact ⟨hex, c8_cosine_self_and_zero.1 _ hex, hn,
    c8_cosine_self_and_zero.2 _ _ (Or.inr hn)⟩

lemma insert_desc_perm (x : String × ℝ) (l : List (String × ℝ)) :
    List.Perm (insert_desc x l) (x :: l) := by
  induction l with
  | nil => exact List.Perm.refl _
  | cons y t ih =>
    by_cases h : x.2 ≤ y.2
    · rw [show insert_desc x (y :: t) = y :: insert_desc x t by simp [insert_desc, h]]
      exact (ih.cons y).trans (List.Perm.swap x y t)
    · rw [show insert_desc x (y :: t) = x :: y :: t by simp [insert_desc, h]]

lemma mem_insert_desc {x r : String × ℝ} {l : List (String × ℝ)} :
    r ∈ insert_desc x l ↔ r = x ∨ r ∈ l := by
  rw [(insert_desc_perm x l).mem_iff, List.mem_cons]

lemma insert_desc_sorted (x : String × ℝ) (l : List (String × ℝ))
    (h : l.Pairwise (fun a b => b.2 ≤ a.2)) :
    (insert_desc x l).Pairwise (fun a b => b.2 ≤ a.2) := by
  induction l with
  | nil => simp [insert_desc]
  | cons y t ih =>
    rw [List.pairwise_cons] at h
    obtain ⟨hy, ht⟩ := h
    by_cases hxy : x.2 ≤ y.2
    · rw [show insert_desc x (y :: t) = y :: insert_desc x t by simp [insert_desc, hxy],
        List.pairwise_cons]
      refine ⟨?_, ih ht⟩
      intro b hb
      rcases mem_insert_desc.mp hb with rfl | hbt
      · exact hxy
      · exact hy b hbt
    · rw [show insert_desc x (y :: t) = x :: y :: t by simp [insert_desc, hxy],
        List.pairwise_cons]
      refine ⟨?_, List.pairwise_cons.mpr ⟨hy, ht⟩⟩
      intro b hb
      have hyx : y.2 ≤ x.2 := le_of_lt (not_le.mp hxy)
      rcases List.mem_cons.mp hb with rfl | hbt
      · exact hyx
      · exact le_trans (hy b hbt) hyx

lemma insert_desc_filter (c : ℝ) (x : String × ℝ) (l : List (String × ℝ))
    (h : l.Pairwise (fun a b => b.2 ≤ a.2)) :
    (insert_desc x l).filter (fun r => decide (r.2 = c))
      = if x.2 = c then l.filter (fun r => decide (r.2 = c)) ++ [x]
        else l.filter (fun r => decide (r.2 = c)) := by
  induction l with
  | nil =>
    by_cases hx : x.2 = c <;> simp [insert_desc, List.filter_cons, hx]
  | cons y t ih =>
    rw [List.pairwise_cons] at h
    obtain ⟨hy, ht⟩ := h
    by_cases hxy : x.2 ≤ y.2
    · rw [show insert_desc x (y :: t) = y :: insert_desc x t by simp [insert_desc, hxy]]
      by_cases hyc : y.2 = c <;> by_cases hxc : x.2 = c <;>
        simp [List.filter_cons, hyc, hxc, ih ht]
    · rw [show insert_desc x (y :: t) = x :: y :: t by simp [insert_desc, hxy]]
      by_cases hxc : x.2 = c
      · have hnil : (y :: t).filter (fun r => decide (r.2 = c)) = [] := by
          apply List.filter_eq_nil_iff.mpr
          intro a ha
          have hay : a.2 ≤ y.2 := by
            rcases List.mem_cons.mp ha with rfl | hat
            · exact le_refl _
            · exact hy a hat
          have : a.2 < x.2 := lt_of_le_of_lt hay (not_le.mp hxy)
          simp only [decide_eq_true_eq]
          intro hac
          rw [hac, ← hxc] at this
          exact lt_irrefl _ this
        simp [List.filter_cons, hxc, hnil]
      · simp [List.filter_cons, hxc]

lemma foldl_insert_perm (l acc : List (String × ℝ)) :
    List.Perm (l.foldl (fun a x => insert_desc x a) acc) (acc ++ l) := by
  induction l generalizing acc with
  | nil => simp
  | cons x t ih =>
    have h1 := ih (insert_desc x acc)
    have h2 : List.Perm (insert_desc x acc ++ t) ((x :: acc) ++ t) :=
      (insert_desc_perm x acc).append_right t
    have h3 : List.Perm (x :: (acc ++ t)) (acc ++ x :: t) := List.perm_middle.symm
    exact h1.trans (h2.trans h3)

lemma foldl_insert_sorted (l acc : List (String × ℝ))
    (h : acc.Pairwise (fun a b => b.2 ≤ a.2)) :
    (l.foldl (fun a x => insert_desc x a) acc).Pairwise (fun a b => b.2 ≤ a.2) := by
  induction l generalizing acc with
  | nil => exact h
  | cons x t ih => exact ih _ (insert_desc_sorted x acc h)

lemma foldl_insert_filter (c : ℝ) (l acc : List (String × ℝ))
    (h : acc.Pairwise (fun a b => b.2 ≤ a.2)) :
    (l.foldl (fun a x => insert_desc x a) acc).filter (fun r => decide (r.2 = c))
      = acc.filter (fun r => decide (r.2 = c)) ++ l.filter (fun r => decide (r.2 = c)) := by
  induction l generalizing acc with
  | nil => simp
  | cons x t ih =>
    have step := insert_desc_filter c x acc h
    calc ((x :: t).foldl (fun a x => insert_desc x a) acc).filter (fun r => decide (r.2 = c))
        = (t.foldl (fun a x => insert_desc x a) (insert_desc x acc)).filter
            (fun r => decide (r.2 = c)) := rfl
      _ = (insert_desc x acc).filter (fun r => decide (r.2 = c))
            ++ t.filter (fun r => decide (r.2 = c)) := ih _ (insert_desc_sorted x acc h)
      _ = acc.filter (fun r => decide (r.2 = c))
            ++ (x :: t).filter (fun r => decide (r.2 = c)) := by
          rw [step]
          by_cases hxc : x.2 = c <;> simp [List.filter_cons, hxc]

lemma sort_desc_perm (l : List (String × ℝ)) : List.Perm (sort_desc l) l := by
  simpa [sort_desc] using foldl_insert_perm l []

lemma sort_desc_sorted (l : List (String × ℝ)) :
    (sort_desc l).Pairwise (fun a b => b.2 ≤ a.2) :=
  foldl_insert_sorted l [] (by simp)

lemma sort_desc_filter (c : ℝ) (l : List (String × ℝ)) :
    (sort_desc l).filter (fun r => decide (r.2 = c))
      = l.filter (fun r => decide (r.2 = c)) := by
  simpa using foldl_insert_filter c l [] (by simp)

/-- The scored-and-thresholded list built by the `for` loop of `search`
(vector_store.py lines 54-58) is the stored entries, scored in insertion
order, restricted to scores meeting the threshold. -/
lemma sims_eq_filter_map (cfg : VectorDBConfig) (q : List ℝ)
    (l : List (String × List ℝ)) :
    l.filterMap (fun e =>
        let sim := cosine_similarity q e.2
        if cfg.similarity_threshold ≤ sim then some (e.1, sim) else none)
      = (l.map (fun e => (e.1, cosine_similarity q e.2))).filter
          (fun r => decide (cfg.similarity_threshold ≤ r.2)) := by
  induction l with
  | nil => rfl
  | cons e t ih =>
    by_cases h : cfg.similarity_threshold ≤ cosine_similarity q e.2 <;>
      simp [List.filterMap_cons, List.filter_cons, h, ih]

lemma search_eq (cfg : VectorDBConfig) (s : VectorStore) (q : List ℝ)
    (top_k : Option Nat) (hemp : ¬ s.embeddings.isEmpty = true) :
    search cfg s q top_k
      = (sort_desc ((s.embeddings.map (fun e => (e.1, cosine_similarity q e.2))).filter
          (fun r => decide (cfg.similarity_threshold ≤ r.2)))).take
            (effective_top_k cfg top_k) := by
  simp only [search]
  rw [if_neg hemp]
  exact congrArg (fun l => (sort_desc l).take (effective_top_k cfg top_k))
    (sims_eq_filter_map cfg q s.embeddings)

/-- C4 (amended): every returned score meets the configured threshold,
results are sorted descending by score, within each score value the
returned entries keep the stored insertion order (a sublist of the
scored store), and at most `effective_top_k` results are returned —
which is `topK` itself whenever `topK ≥ 1`, and falls back to
`config.max_results` when `topK` is 0 or omitted. -/
theorem c4_search_contract (cfg : VectorDBConfig) (s : VectorStore)
    (q : List ℝ) (top_k : Option Nat) :
    (∀ r ∈ search cfg s q top_k, cfg.similarity_threshold ≤ r.2)
    ∧ (search cfg s q top_k).Pairwise (fun a b => b.2 ≤ a.2)
    ∧ (∀ c : ℝ, List.Sublist
        ((search cfg s q top_k).filter (fun r => decide (r.2 = c)))
        ((s.embeddings.map (fun e => (e.1, cosine_similarity q e.2))).filter
            (fun r => decide (r.2 = c))))
    ∧ (search cfg s q top_k).length ≤ effective_top_k cfg top_k
    ∧ (∀ n, top_k = some n → 1 ≤ n → (search cfg s q top_k).length ≤ n) := by
  by_cases hemp : s.embeddings.isEmpty = true
  · have hnil : search cfg s q top_k = [] := by simp [search, hemp]
    rw [hnil]
    refine ⟨by simp, by simp, fun c => ?_, by simp, fun n hn h1 => by simp⟩
    simp only [List.filter_nil]
    exact List.nil_sublist _
  · rw [search_eq cfg s q top_k hemp]
    set scored := s.embeddings.map (fun e => (e.1, cosine_similarity q e.2)) with hscored
    set S := scored.filter (fun r => decide (cfg.similarity_threshold ≤ r.2)) with hSdef
    set K := effective_top_k cfg top_k with hK
    have hlen : ((sort_desc S).take K).length ≤ K := by
      rw [List.length_take]
      exact min_le_left _ _
    refine ⟨?_, ?_, ?_, hlen, ?_⟩
    · intro r hr
      have hr1 : r ∈ sort_desc S := List.take_subset K _ hr
      have hr2 : r ∈ S := (sort_desc_perm S).mem_iff.mp hr1
      have := List.of_mem_filter hr2
      simpa using this
    · exact List.Pairwise.sublist (List.take_sublist K _) (sort_desc_sorted S)
    · intro c
      have h1 : List.Sublist (((sort_desc S).take K).filter (fun r => decide (r.2 = c)))
          ((sort_desc S).filter (fun r => decide (r.2 = c))) :=
        (List.take_sublist K _).filter _
      rw [sort_desc_filter] at h1
      have h2 : List.Sublist (S.filter (fun r => decide (r.2 = c)))
          (scored.filter (fun r => decide (r.2 = c))) :=
        (List.filter_sublist scored).filter _
      exact h1.trans h2
    · intro n hn h1n
      rw [hn] at hK
      cases n with
      | zero => omega
      | succ m =>
        have : K = m + 1 := by rw [hK]; rfl
        rw [← this]
        exact hlen

/-- C9: search on an empty index yields `[]` for every query and `top_k`,
and search in a state where no stored entry meets the threshold also
yields `[]`; both are ordinary return paths of the model, not errors. -/
theorem c9_search_empty_cases :
    (∀ (cfg : VectorDBConfig) (q : List ℝ) (k : Option Nat),
      search cfg emptyStore q k = [])
    ∧ (∀ (cfg : VectorDBConfig) (s : VectorStore) (q : List ℝ) (k : Option Nat),
        (∀ e ∈ s.embeddings, cosine_similarity q e.2 < cfg.similarity_threshold) →
        search cfg s q k = []) := by
  constructor
  · intro cfg q k
    simp [search, emptyStore]
  · intro cfg s q k h
    by_cases hemp : s.embeddings.isEmpty = true
    · simp [search, hemp]
    · rw [search_eq cfg s q k hemp]
      have hfil : (s.embeddings.map (fun e => (e.1, cosine_similarity q e.2))).filter
          (fun r => decide (cfg.similarity_threshold ≤ r.2)) = [] := by
        apply List.filter_eq_nil_iff.mpr
        intro r hr
        obtain ⟨e, he, rfl⟩ := List.mem_map.mp hr
        simp only [decide_eq_true_eq]
        exact not_le.mpr (h e he)
      rw [hfil]
      simp [sort_desc]

/-- C9 witness: a one-entry store whose only vector has zero norm; its
similarity 0 is below the threshold 7/10, so the search returns `[]`. -/
theorem c9_witness :
    (∀ e ∈ ([("a", [(0 : ℝ)])] : List (String × List ℝ)),
      cosine_similarity [(1 : ℝ)] e.2 < (⟨1536, 7 / 10, 10⟩ : VectorDBConfig).similarity_threshold)
    ∧ search ⟨1536, 7 / 10, 10⟩ ⟨[("a", [(0 : ℝ)])], []⟩ [(1 : ℝ)] none = [] := by
  have hz : vnorm [(0 : ℝ)] = 0 := by
    unfold vnorm
    rw [show dot [(0 : ℝ)] [(0 : ℝ)] = 0 by simp [dot], Real.sqrt_zero]
  have hlt : ∀ e ∈ ([("a", [(0 : ℝ)])] : List (String × List ℝ)),
      cosine_similarity [(1 : ℝ)] e.2
        < (⟨1536, 7 / 10, 10⟩ : VectorDBConfig).similarity_threshold := by
    intro e he
    rcases List.mem_singleton.mp he with rfl
    rw [cosine_similarity_zero _ _ (Or.inr hz)]
    norm_num
  exact ⟨hlt, c9_search_empty_cases.2 _ _ _ _ hlt⟩

/-- C4 witness: the amended contract instantiated at a concrete
one-entry store, query and `topK = 1`. -/
theorem c4_witness :
    (∀ r ∈ search ⟨1536, 7 / 10, 10⟩ ⟨[("a", [(1 : ℝ)])], []⟩ [(1 : ℝ)] (some 1),
      (⟨1536, 7 / 10, 10⟩ : VectorDBConfig).similarity_threshold ≤ r.2)
    ∧ (search ⟨1536, 7 / 10, 10⟩ ⟨[("a", [(1 : ℝ)])], []⟩ [(1 : ℝ)] (some 1)).length ≤ 1 :=
  ⟨(c4_search_contract ⟨1536, 7 / 10, 10⟩ ⟨[("a", [(1 : ℝ)])], []⟩ [(1 : ℝ)] (some 1)).1,
   (c4_search_contract ⟨1536, 7 / 10, 10⟩ ⟨[("a", [(1 : ℝ)])], []⟩ [(1 : ℝ)]
      (some 1)).2.2.2.2 1 rfl (le_refl 1)⟩

/-- C4 counterexample: with `topK = 0`, Python's `top_k or max_results`
replaces the cap by `max_results`, so a store holding one qualifying
entry returns one result — more than the zero the claim permits.  The
conjunction instantiates the claim as stated at this input; its final
conjunct (`length ≤ topK`) is the one that fails. -/
theorem c4_counterexample :
    ¬ ((∀ r ∈ search ⟨1536, 7 / 10, 10⟩ ⟨[("a", [(1 : ℝ)])], []⟩ [(1 : ℝ)] (some 0),
          (⟨1536, 7 / 10, 10⟩ : VectorDBConfig).similarity_threshold ≤ r.2)
        ∧ (search ⟨1536, 7 / 10, 10⟩ ⟨[("a", [(1 : ℝ)])], []⟩ [(1 : ℝ)]
            (some 0)).Pairwise (fun a b => b.2 ≤ a.2)
        ∧ (∀ c : ℝ, List.Sublist
            ((search ⟨1536, 7 / 10, 10⟩ ⟨[("a", [(1 : ℝ)])], []⟩ [(1 : ℝ)]
                (some 0)).filter (fun r => decide (r.2 = c)))
            ((([("a", [(1 : ℝ)])] : List (String × List ℝ)).map
                (fun e => (e.1, cosine_similarity [(1 : ℝ)] e.2))).filter
                (fun r => decide (r.2 = c))))
        ∧ (search ⟨1536, 7 / 10, 10⟩ ⟨[("a", [(1 : ℝ)])], []⟩ [(1 : ℝ)]
            (some 0)).length ≤ 0) := by
  have hcos : cosine_similarity [(1 : ℝ)] [(1 : ℝ)] = 1 :=
    cosine_similarity_self _ ⟨1, by simp, one_ne_zero⟩
  have hemp : ¬ (⟨[("a", [(1 : ℝ)])], []⟩ : VectorStore).embeddings.isEmpty = true := by
    simp
  have hsearch : search ⟨1536, 7 / 10, 10⟩ ⟨[("a", [(1 : ℝ)])], []⟩ [(1 : ℝ)] (some 0)
      = [("a", (1 : ℝ))] := by
    rw [search_eq _ _ _ _ hemp]
    have hmap : ((⟨[("a", [(1 : ℝ)])], []⟩ : VectorStore).embeddings.map
        (fun e => (e.1, cosine_similarity [(1 : ℝ)] e.2))) = [("a", (1 : ℝ))] := by
      simp [hcos]
    rw [hmap, List.filter_cons,
      if_pos (by simp only [decide_eq_true_eq]; norm_num :
        decide ((⟨1536, 7 / 10, 10⟩ : VectorDBConfig).similarity_threshold ≤
          (("a", (1 : ℝ)) : String × ℝ).2) = true)]
    rfl
  intro h
  have hlen := h.2.2.2
  rw [hsearch] at hlen
  simp at hlen

lemma mem_succs {g : KnowledgeGraph} {v x : String} :
    x ∈ succs g v ↔ (v, x) ∈ g.edges := by
  unfold succs
  rw [List.mem_map]
  constructor
  · rintro ⟨e, he, rfl⟩
    have := List.mem_filter.mp he
    obtain ⟨hmem, hfst⟩ := this
    have : e.1 = v := by simpa using hfst
    rw [show e = (v, e.2) from Prod.ext this rfl] at hmem
    exact hmem
  · intro h
    exact ⟨(v, x), List.mem_filter.mpr ⟨h, by simp⟩, rfl⟩

lemma reach_succ {g : KnowledgeGraph} {u v : String} {k : Nat}
    (h : ReachWithin g u k v) : ReachWithin g u (k + 1) v := by
  induction h with
  | refl k => exact .refl (k + 1)
  | step hv he ih => exact .step ih he

lemma reach_mono_le {g : KnowledgeGraph} {u v : String} {k k' : Nat}
    (hk : k ≤ k') (h : ReachWithin g u k v) : ReachWithin g u k' v := by
  obtain ⟨m, rfl⟩ := Nat.exists_eq_add_of_le hk
  induction m with
  | zero => exact h
  | succ n ih =>
    rw [Nat.add_succ]
    exact reach_succ (ih (Nat.le_add_right k n))

lemma mem_ball {g : KnowledgeGraph} {src : String} :
    ∀ (k : Nat) (x : String), x ∈ ball g src k ↔ ReachWithin g src k x := by
  intro k
  induction k with
  | zero =>
    intro x
    constructor
    · intro hx
      rw [show ball g src 0 = [src] from rfl, List.mem_singleton] at hx
      rw [hx]
      exact .refl 0
    · intro h
      cases h with
      | refl => simp [ball]
  | succ k ih =>
    intro x
    constructor
    · intro hx
      simp only [ball, List.mem_dedup, List.mem_append, List.mem_flatMap] at hx
      rcases hx with hb | ⟨y, hy, hxy⟩
      · exact reach_succ ((ih x).mp hb)
      · exact .step ((ih y).mp hy) (mem_succs.mp hxy)
    · intro h
      simp only [ball, List.mem_dedup, List.mem_append, List.mem_flatMap]
      cases h with
      | refl => exact Or.inl ((ih src).mpr (.refl k))
      | step hv he => exact Or.inr ⟨_, (ih _).mpr hv, mem_succs.mpr he⟩

/-- C6: for `max_depth ≥ 1`, `get_related_chunks` returns exactly the
nodes reachable from the source in at most `max_depth` directed hops,
the source itself excluded; a source that is not a node of the graph
yields the empty list. -/
theorem c6_related_chunks (g : KnowledgeGraph) (c : String) (d : Nat) (x : String)
    (hd : 1 ≤ d) :
    (node_mem g c = true →
      (x ∈ get_related_chunks g c d ↔ (ReachWithin g c d x ∧ x ≠ c)))
    ∧ (node_mem g c = false → get_related_chunks g c d = []) := by
  constructor
  · intro hmem
    unfold get_related_chunks
    rw [if_pos hmem, List.mem_filter]
    constructor
    · rintro ⟨hx, hne⟩
      rw [List.mem_dedup, List.mem_flatMap] at hx
      obtain ⟨depth, hdepth, hxball⟩ := hx
      have hlt : depth + 1 ≤ d := List.mem_range.mp hdepth
      exact ⟨reach_mono_le hlt ((mem_ball (depth + 1) x).mp hxball), by simpa using hne⟩
    · rintro ⟨hreach, hne⟩
      refine ⟨?_, by simpa⟩
      rw [List.mem_dedup, List.mem_flatMap]
      refine ⟨d - 1, List.mem_range.mpr (by omega), ?_⟩
      have hd1 : d - 1 + 1 = d := by omega
      rw [hd1]
      exact (mem_ball d x).mpr hreach
  · intro hmem
    unfold get_related_chunks
    rw [if_neg (by simp [hmem])]

/-- C6 witness: in the graph with edges a→b→c, node b is within one hop
of a and is returned; the equivalence is the theorem instantiated there. -/
theorem c6_witness :
    1 ≤ 1
    ∧ ("b" ∈ get_related_chunks ⟨["a"], [("a", "b"), ("b", "c")]⟩ "a" 1
        ↔ (ReachWithin ⟨["a"], [("a", "b"), ("b", "c")]⟩ "a" 1 "b" ∧ "b" ≠ "a")) :=
  ⟨le_refl 1,
   (c6_related_chunks ⟨["a"], [("a", "b"), ("b", "c")]⟩ "a" 1 "b" (le_refl 1)).1
     (by decide)⟩

/-- C3 (spec-modelled): when the entries sharing `p`'s parent are exactly
`{A, B, p}` and `p` contributes no one-hop children (it is a file, or no
entry has it as parent), `related_files` returns exactly the paths of the
two siblings `A` and `B`. -/
theorem c3_related_files (entries : List PathEntry) (p A B : PathEntry)
    (hA : A ∈ entries) (hB : B ∈ entries)
    (hsib : ∀ e ∈ entries, (e.parent = p.parent ↔ (e = A ∨ e = B ∨ e = p)))
    (hApath : A.path ≠ p.path) (hBpath : B.path ≠ p.path)
    (hnochild : p.kind = EntryKind.file ∨ ∀ e ∈ entries, e.parent ≠ some p.path) :
    ∀ q, q ∈ related_files entries p ↔ (q = A.path ∨ q = B.path) := by
  intro q
  unfold related_files
  rw [List.mem_append]
  constructor
  · rintro (hq | hq)
    · rw [List.mem_map] at hq
      obtain ⟨e, he, rfl⟩ := hq
      obtain ⟨hmem, hcond⟩ := List.mem_filter.mp he
      rw [decide_eq_true_eq] at hcond
      obtain ⟨hpar, hne⟩ := hcond
      rcases (hsib e hmem).mp hpar with rfl | rfl | rfl
      · exact Or.inl rfl
      · exact Or.inr rfl
      · exact absurd rfl hne
    · rcases hnochild with hfile | hnoc
      · rw [hfile] at hq
        simp at hq
      · by_cases hdir : p.kind = EntryKind.directory
        · rw [if_pos hdir] at hq
          rw [List.mem_map] at hq
          obtain ⟨e, he, rfl⟩ := hq
          obtain ⟨hmem, hcond⟩ := List.mem_filter.mp he
          exact absurd (by simpa using hcond) (hnoc e hmem)
        · rw [if_neg hdir] at hq
          simp at hq
  · rintro (rfl | rfl)
    · exact Or.inl (List.mem_map.mpr
        ⟨A, List.mem_filter.mpr ⟨hA, by
          simp only [decide_eq_true_eq]
          exact ⟨(hsib A hA).mpr (Or.inl rfl), hApath⟩⟩, rfl⟩)
    · exact Or.inl (List.mem_map.mpr
        ⟨B, List.mem_filter.mpr ⟨hB, by
          simp only [decide_eq_true_eq]
          exact ⟨(hsib B hB).mpr (Or.inr (Or.inl rfl)), hBpath⟩⟩, rfl⟩)

/-- Concrete sibling entries under parent `d`, for the C3 witness. -/
def entryA : PathEntry := ⟨"a".data, 1, "d/a".data, some ("d".data), EntryKind.file⟩

/-- Second sibling for the C3 witness. -/
def entryB : PathEntry := ⟨"b".data, 1, "d/b".data, some ("d".data), EntryKind.file⟩

/-- The queried sibling for the C3 witness. -/
def entryC : PathEntry := ⟨"c".data, 1, "d/c".data, some ("d".data), EntryKind.file⟩

/-- C3 witness: in the three-sibling structure `{a, b, c}` under `d`,
`related_files` of `c` is exactly `{d/a, d/b}`. -/
theorem c3_witness :
    entryA ∈ [entryA, entryB, entryC] ∧ entryB ∈ [entryA, entryB, entryC]
    ∧ (∀ e ∈ [entryA, entryB, entryC],
        (e.parent = entryC.parent ↔ (e = entryA ∨ e = entryB ∨ e = entryC)))
    ∧ entryA.path ≠ entryC.path ∧ entryB.path ≠ entryC.path
    ∧ (entryC.kind = EntryKind.file
        ∨ ∀ e ∈ [entryA, entryB, entryC], e.parent ≠ some entryC.path)
    ∧ (∀ q, q ∈ related_files [entryA, entryB, entryC] entryC
        ↔ (q = entryA.path ∨ q = entryB.path)) := by
  refine ⟨by decide, by decide, by decide, by decide, by decide, Or.inl (by decide), ?_⟩
  exact c3_related_files [entryA, entryB, entryC] entryC entryA entryB
    (by decide) (by decide) (by decide) (by decide) (by decide) (Or.inl (by decide))

/-- A real tree node name: nonempty and free of the path separator. -/
def good_name (n : List Char) : Prop := n ≠ [] ∧ '/' ∉ n

instance good_name_dec (n : List Char) : Decidable (good_name n) := by
  unfold good_name
  infer_instance

lemma getLast?_append_singleton {α : Type} (l : List α) (a : α) :
    (l ++ [a]).getLast? = some a := by
  induction l with
  | nil => rfl
  | cons x t ih =>
    rw [List.cons_append]
    cases ht : t ++ [a] with
    | nil => exact absurd ht (by simp)
    | cons y u =>
      rw [List.getLast?_cons_cons, ← ht, ih]

lemma eq_of_append_slash {a b r₁ r₂ : List Char} (ha : '/' ∉ a) (hb : '/' ∉ b)
    (h : a ++ '/' :: r₁ = b ++ '/' :: r₂) : a = b ∧ r₁ = r₂ := by
  induction a generalizing b with
  | nil =>
    cases b with
    | nil => simpa using h
    | cons d bt =>
      rw [List.nil_append, List.cons_append, List.cons.injEq] at h
      exact absurd (by rw [h.1]; exact List.mem_cons_self _ _) hb
  | cons c at' ih =>
    cases b with
    | nil =>
      rw [List.nil_append, List.cons_append, List.cons.injEq] at h
      exact absurd (by rw [← h.1]; exact List.mem_cons_self _ _) ha
    | cons d bt =>
      rw [List.cons_append, List.cons_append, List.cons.injEq] at h
      have ha' : '/' ∉ at' := fun hx => ha (List.mem_cons_of_mem _ hx)
      have hb' : '/' ∉ bt := fun hx => hb (List.mem_cons_of_mem _ hx)
      obtain ⟨he, hr⟩ := ih ha' hb' h.2
      exact ⟨by rw [h.1, he], hr⟩

lemma join_slash_inj : ∀ (s₁ s₂ : List (List Char)),
    (∀ n ∈ s₁, good_name n) → (∀ n ∈ s₂, good_name n) →
    join_slash s₁ = join_slash s₂ → s₁ = s₂ := by
  intro s₁
  induction s₁ with
  | nil =>
    intro s₂ _ hg₂ h
    cases s₂ with
    | nil => rfl
    | cons b t =>
      cases t with
      | nil =>
        exact absurd (by simpa [join_slash] using h.symm) (hg₂ b (List.mem_cons_self _ _)).1
      | cons c t' =>
        rw [show join_slash ([] : List (List Char)) = [] from rfl,
          show join_slash (b :: c :: t') = b ++ '/' :: join_slash (c :: t') from rfl] at h
        exact absurd h.symm (by simp)
  | cons a t₁ ih =>
    intro s₂ hg₁ hg₂ h
    cases s₂ with
    | nil =>
      cases t₁ with
      | nil =>
        exact absurd (by simpa [join_slash] using h) (hg₁ a (List.mem_cons_self _ _)).1
      | cons c t' =>
        rw [show join_slash (a :: c :: t') = a ++ '/' :: join_slash (c :: t') from rfl,
          show join_slash ([] : List (List Char)) = [] from rfl] at h
        exact absurd h (by simp)
    | cons b t₂ =>
      cases t₁ with
      | nil =>
        cases t₂ with
        | nil => rw [show join_slash [a] = a from rfl, show join_slash [b] = b from rfl] at h
                 rw [h]
        | cons d t₂' =>
          rw [show join_slash [a] = a from rfl,
            show join_slash (b :: d :: t₂') = b ++ '/' :: join_slash (d :: t₂') from rfl] at h
          have : '/' ∈ a := by rw [h]; simp
          exact absurd this (hg₁ a (List.mem_cons_self _ _)).2
      | cons c t₁' =>
        cases t₂ with
        | nil =>
          rw [show join_slash (a :: c :: t₁') = a ++ '/' :: join_slash (c :: t₁') from rfl,
            show join_slash [b] = b from rfl] at h
          have : '/' ∈ b := by rw [← h]; simp
          exact absurd this (hg₂ b (List.mem_cons_self _ _)).2
        | cons d t₂' =>
          rw [show join_slash (a :: c :: t₁') = a ++ '/' :: join_slash (c :: t₁') from rfl,
            show join_slash (b :: d :: t₂') = b ++ '/' :: join_slash (d :: t₂') from rfl] at h
          obtain ⟨hab, hjoin⟩ := eq_of_append_slash
            (hg₁ a (List.mem_cons_self _ _)).2 (hg₂ b (List.mem_cons_self _ _)).2 h
          have := ih (d :: t₂') (fun n hn => hg₁ n (List.mem_cons_of_mem _ hn))
            (fun n hn => hg₂ n (List.mem_cons_of_mem _ hn)) hjoin
          rw [hab, this]

lemma count_slash_join : ∀ (s : List (List Char)), s ≠ [] →
    (∀ n ∈ s, '/' ∉ n) → (join_slash s).count '/' = s.length - 1 := by
  intro s
  induction s with
  | nil => intro h; exact absurd rfl h
  | cons a t ih =>
    intro _ hns
    cases t with
    | nil =>
      rw [show join_slash [a] = a from rfl]
      simpa [List.count_eq_zero] using hns a (List.mem_cons_self _ _)
    | cons c t' =>
      rw [show join_slash (a :: c :: t') = a ++ '/' :: join_slash (c :: t') from rfl]
      rw [List.count_append, List.count_cons_self]
      have ha : a.count '/' = 0 :=
        List.count_eq_zero.mpr (hns a (List.mem_cons_self _ _))
      have ht := ih (by simp) (fun n hn => hns n (List.mem_cons_of_mem _ hn))
      rw [ha, ht]
      simp

/-- Every parsed entry is the image of a stack of good names: its path is
their slash-join, its recorded level is one less than the stack length,
its name is the last stack element, and its parent is the join of the
stack minus its last element. -/
def entry_rep (e : PathEntry) : Prop :=
  ∃ st : List (List Char), st ≠ [] ∧ (∀ n ∈ st, good_name n)
    ∧ e.path = join_slash st
    ∧ e.level + 1 = st.length
    ∧ st.getLast? = some e.name
    ∧ e.parent = (if 0 < e.level then some (join_slash st.dropLast) else none)

lemma foldl_parse_filter :
    ∀ (L : List (List Char)) (st : ParseState),
      L.foldl parse_step st
        = (L.filter (fun l => !(trim_ws l).isEmpty)).foldl parse_step st := by
  intro L
  induction L with
  | nil => intro st; rfl
  | cons l L' ih =>
    intro st
    by_cases hb : trim_ws l = []
    · have h1 : parse_step st l = st := by
        unfold parse_step
        rw [if_pos hb]
      have h2 : (l :: L').filter (fun l => !(trim_ws l).isEmpty)
          = L'.filter (fun l => !(trim_ws l).isEmpty) := by
        simp [List.filter_cons, hb]
      rw [List.foldl_cons, h1, h2, ih]
    · have h2 : (l :: L').filter (fun l => !(trim_ws l).isEmpty)
          = l :: L'.filter (fun l => !(trim_ws l).isEmpty) := by
        simp [List.filter_cons, List.isEmpty_iff, hb]
      rw [List.foldl_cons, h2, List.foldl_cons, ih]

lemma parse_fold_rep :
    ∀ (L : List (List Char)) (st : ParseState) (lv : Nat),
      (∀ l ∈ L, trim_ws l ≠ []) →
      (∀ l ∈ L, good_name (strip_glyphs l)) →
      List.Chain (fun a b => b ≤ a + 1) lv (L.map line_level) →
      st.current_path.length = lv + 1 →
      (∀ n ∈ st.current_path, good_name n) →
      (∀ e ∈ st.entries, entry_rep e) →
      ∀ e ∈ (L.foldl parse_step st).entries, entry_rep e := by
  intro L
  induction L with
  | nil => intro st lv _ _ _ _ _ hrep; simpa using hrep
  | cons l L' ih =>
    intro st lv hnb hgood hchain hlen hgoodst hrep
    rw [List.map_cons, List.chain_cons] at hchain
    obtain ⟨hstep, hchain'⟩ := hchain
    have hnbl : trim_ws l ≠ [] := hnb l (List.mem_cons_self _ _)
    have hnamegood : good_name (strip_glyphs l) := hgood l (List.mem_cons_self _ _)
    have hps : parse_step st l = ⟨st.current_path.take (line_level l) ++ [strip_glyphs l],
        st.entries ++ [⟨strip_glyphs l, line_level l,
          join_slash (st.current_path.take (line_level l) ++ [strip_glyphs l]),
          (if 0 < line_level l then
            some (join_slash ((st.current_path.take (line_level l)
              ++ [strip_glyphs l]).dropLast))
          else none),
          (if st.entries.any (fun e =>
              ((join_slash (st.current_path.take (line_level l) ++ [strip_glyphs l]))
                ++ ['/']).isPrefixOf e.path)
            then EntryKind.directory else EntryKind.file)⟩]⟩ := by
      unfold parse_step
      rw [if_neg hnbl]
    have hlen2 : (st.current_path.take (line_level l) ++ [strip_glyphs l]).length
        = line_level l + 1 := by
      rw [List.length_append, List.length_take, hlen]
      have : min (line_level l) (lv + 1) = line_level l := min_eq_left hstep
      rw [this]
      rfl
    have hgood2 : ∀ n ∈ st.current_path.take (line_level l) ++ [strip_glyphs l],
        good_name n := by
      intro n hn
      rcases List.mem_append.mp hn with hn | hn
      · exact hgoodst n (List.take_subset _ _ hn)
      · rw [List.mem_singleton.mp hn]
        exact hnamegood
    rw [List.foldl_cons, hps]
    apply ih _ (line_level l)
      (fun x hx => hnb x (List.mem_cons_of_mem _ hx))
      (fun x hx => hgood x (List.mem_cons_of_mem _ hx))
      hchain' hlen2 hgood2
    intro e he
    rcases List.mem_append.mp he with he | he
    · exact hrep e he
    · rw [List.mem_singleton.mp he]
      refine ⟨st.current_path.take (line_level l) ++ [strip_glyphs l],
        by simp, hgood2, rfl, hlen2.symm, getLast?_append_singleton _ _, rfl⟩

lemma parse_rep (text : List Char)
    (hgood : ∀ l ∈ split_lines text, trim_ws l ≠ [] → good_name (strip_glyphs l))
    (hhead : (((split_lines text).filter (fun l => !(trim_ws l).isEmpty)).map
        line_level).head? = some 0
      ∨ (split_lines text).filter (fun l => !(trim_ws l).isEmpty) = [])
    (hchain : (((split_lines text).filter (fun l => !(trim_ws l).isEmpty)).map
        line_level).Chain' (fun a b => b ≤ a + 1)) :
    ∀ e ∈ parse_repo_structure text, entry_rep e := by
  unfold parse_repo_structure
  rw [foldl_parse_filter]
  have hFnb : ∀ l ∈ (split_lines text).filter (fun l => !(trim_ws l).isEmpty),
      trim_ws l ≠ [] := by
    intro l hl
    have := (List.mem_filter.mp hl).2
    simpa [List.isEmpty_iff] using this
  have hFgood : ∀ l ∈ (split_lines text).filter (fun l => !(trim_ws l).isEmpty),
      good_name (strip_glyphs l) := by
    intro l hl
    exact hgood l (List.mem_filter.mp hl).1 (hFnb l hl)
  cases hFc : (split_lines text).filter (fun l => !(trim_ws l).isEmpty) with
  | nil => intro e he; simp at he
  | cons l₀ F' =>
    rw [hFc] at hFnb hFgood hchain hhead
    have hl₀ : line_level l₀ = 0 := by
      rcases hhead with h | h
      · rw [List.map_cons, List.head?_cons] at h
        exact Option.some.inj h
      · exact absurd h (by simp)
    have hnb₀ : trim_ws l₀ ≠ [] := hFnb l₀ (List.mem_cons_self _ _)
    have hgood₀ : good_name (strip_glyphs l₀) := hFgood l₀ (List.mem_cons_self _ _)
    have hstate : parse_step ⟨[], []⟩ l₀ = ⟨[strip_glyphs l₀],
        [⟨strip_glyphs l₀, line_level l₀, join_slash [strip_glyphs l₀], none,
          EntryKind.file⟩]⟩ := by
      unfold parse_step
      rw [if_neg hnb₀]
      rw [hl₀]
      rfl
    rw [List.foldl_cons, hstate]
    apply parse_fold_rep F' _ (line_level l₀)
      (fun x hx => hFnb x (List.mem_cons_of_mem _ hx))
      (fun x hx => hFgood x (List.mem_cons_of_mem _ hx))
      (by rw [List.map_cons] at hchain; exact hchain)
      (by rw [hl₀]; rfl)
      (by intro n hn; rw [List.mem_singleton.mp hn]; exact hgood₀)
    intro e he
    rw [List.mem_singleton.mp he]
    refine ⟨[strip_glyphs l₀], by simp, ?_, rfl, by rw [hl₀]; rfl, rfl, ?_⟩
    · intro n hn
      rw [List.mem_singleton.mp hn]
      exact hgood₀
    · rw [hl₀]
      rfl

/-- C5: for a valid dump — nonblank lines carry nonempty slash-free
names, the first nonblank line is at level 0, levels grow by at most one
step, and no two entries share both parent and name (sibling uniqueness)
— the parsed entries have pairwise distinct full paths, and each entry's
recorded level equals its ancestor count, i.e. the number of separators
(equivalently, segments above it) in its full path. -/
theorem c5_parse_unique_levels (text : List Char)
    (H0 : ∀ l ∈ split_lines text, trim_ws l ≠ [] → good_name (strip_glyphs l))
    (H1 : (((split_lines text).filter (fun l => !(trim_ws l).isEmpty)).map
        line_level).head? = some 0
      ∨ (split_lines text).filter (fun l => !(trim_ws l).isEmpty) = [])
    (H2 : (((split_lines text).filter (fun l => !(trim_ws l).isEmpty)).map
        line_level).Chain' (fun a b => b ≤ a + 1))
    (H3 : (parse_repo_structure text).Pairwise
      (fun e₁ e₂ => e₁.parent ≠ e₂.parent ∨ e₁.name ≠ e₂.name)) :
    (parse_repo_structure text).Pairwise (fun e₁ e₂ => e₁.path ≠ e₂.path)
    ∧ ∀ e ∈ parse_repo_structure text, e.path.count '/' = e.level := by
  have hrep := parse_rep text H0 H1 H2
  constructor
  · refine List.Pairwise.imp_of_mem ?_ H3
    intro e₁ e₂ h₁ h₂ hR heq
    obtain ⟨s₁, hs₁ne, hs₁good, hp₁, hl₁, hn₁, hpar₁⟩ := hrep e₁ h₁
    obtain ⟨s₂, hs₂ne, hs₂good, hp₂, hl₂, hn₂, hpar₂⟩ := hrep e₂ h₂
    have hseq : s₁ = s₂ := join_slash_inj s₁ s₂ hs₁good hs₂good
      (by rw [← hp₁, ← hp₂, heq])
    have hname : e₁.name = e₂.name := by
      have h := hn₁
      rw [hseq, hn₂] at h
      exact (Option.some.inj h).symm
    have hlev : e₁.level = e₂.level := by
      rw [hseq] at hl₁
      omega
    have hparent : e₁.parent = e₂.parent := by
      rw [hpar₁, hpar₂, hseq, hlev]
    rcases hR with h | h
    · exact h hparent
    · exact h hname
  · intro e he
    obtain ⟨s, hsne, hsgood, hpath, hlevel, _, _⟩ := hrep e he
    rw [hpath, count_slash_join s hsne (fun n hn => (hsgood n hn).2)]
    omega

/-- C5 witness: the two-line dump `a` / `    ├── b` is valid; its parsed
paths `a` and `a/b` are distinct and their slash counts match the
recorded levels 0 and 1. -/
theorem c5_witness :
    (∀ l ∈ split_lines ("a\n    ├── b".data),
      trim_ws l ≠ [] → good_name (strip_glyphs l))
    ∧ ((((split_lines ("a\n    ├── b".data)).filter
        (fun l => !(trim_ws l).isEmpty)).map line_level).head? = some 0
      ∨ (split_lines ("a\n    ├── b".data)).filter (fun l => !(trim_ws l).isEmpty) = [])
    ∧ ((((split_lines ("a\n    ├── b".data)).filter
        (fun l => !(trim_ws l).isEmpty)).map line_level).Chain' (fun a b => b ≤ a + 1))
    ∧ ((parse_repo_structure ("a\n    ├── b".data)).Pairwise
        (fun e₁ e₂ => e₁.parent ≠ e₂.parent ∨ e₁.name ≠ e₂.name))
    ∧ ((parse_repo_structure ("a\n    ├── b".data)).Pairwise
        (fun e₁ e₂ => e₁.path ≠ e₂.path)
      ∧ ∀ e ∈ parse_repo_structure ("a\n    ├── b".data), e.path.count '/' = e.level) := by
  have hlist : (((split_lines ("a\n    ├── b".data)).filter
      (fun l => !(trim_ws l).isEmpty)).map line_level) = [0, 1] := by decide
  have hchain2 : (((split_lines ("a\n    ├── b".data)).filter
      (fun l => !(trim_ws l).isEmpty)).map line_level).Chain' (fun a b => b ≤ a + 1) := by
    rw [hlist]
    exact List.chain'_cons.mpr ⟨by omega, List.chain'_singleton _⟩
  refine ⟨by decide, by decide, hchain2, by decide, ?_⟩
  exact c5_parse_unique_levels _ (by decide) (by decide) hchain2 (by decide)

end GitSakhi
